import Mathlib

/-!
A shallow embedding of the table-allocation annealer (`main.go`) and proofs
about it.

Modelling conventions:
* Go `map[string]bool` membership maps are modelled extensionally as total
  functions `String → Bool` (a Go map read returns the zero value `false`
  for an absent key, so presence-with-`false` and absence are
  indistinguishable to every read the program performs).
* Go `map[string]string` (the plus-one registry) is modelled as
  `String → Option String`, matching the two-result read
  `plusOne, exists := plusOnes[person.Name]`.
* The program's `float64` scores only ever hold integer values produced by
  counting, so they are modelled as `Int`.  Temperatures and the uniform
  draws of `rand.Float64()` are modelled as real numbers.
* Every call to the global random source is modelled as an explicit input:
  `rand.Intn n` with seed value `r` yields `r % n` when `n > 0` and fails
  (Go: panics) when `n ≤ 0`.  Fallible code returns `Option`.
-/

namespace TableAlloc

/-- Go struct `person` (main.go lines 274-277): a unique name and an ordered
preference list. -/
structure Person where
  name : String
  preferences : List String
deriving DecidableEq, Repr

/-- The zero value of Go's `person` struct: empty name, nil preferences. -/
def zeroPerson : Person := ⟨"", []⟩

/-- Extensional model of Go `map[string]bool`: reads default to `false`. -/
def PMap : Type := String → Bool

/-- The empty membership map (`make(map[string]bool)`). -/
def emptyPMap : PMap := fun _ => false

/-- Go `m[k] = v` on a `map[string]bool`. -/
def PMap.insert (m : PMap) (k : String) (v : Bool) : PMap :=
  fun s => if s = k then v else m s

/-- Go map key removal on a `map[string]bool`: subsequent reads of `k`
return the zero value `false`. -/
def PMap.remove (m : PMap) (k : String) : PMap :=
  fun s => if s = k then false else m s

/-- Go struct `table` (main.go lines 279-283). -/
structure Table where
  capacity : Nat
  people : List Person
  peopleMap : PMap

/-- Model of Go `map[string]string` for the plus-one registry, read with the
comma-ok form. -/
def PlusOnes : Type := String → Option String

/-- Model of `rand.Intn n` given the raw value `r` drawn from the stream: a uniform
value in `[0, n)` when `n > 0`; Go panics when `n ≤ 0`. -/
def intn (n : Nat) (r : Nat) : Option Nat :=
  if 0 < n then some (r % n) else none

/-- Go `copyAssignment` on one table (main.go lines 514-521): the copy's
`people` slice is allocated with length `capacity` and the source people are
copied into it (truncating past `capacity`, zero-filling when the source is
shorter); the membership map is rebuilt entry by entry, which is
extensionally the identity. -/
def copyTable (t : Table) : Table :=
  { capacity := t.capacity,
    people := t.people.take t.capacity
      ++ List.replicate (t.capacity - t.people.length) zeroPerson,
    peopleMap := t.peopleMap }

/-- Go `copyAssignment` (main.go lines 509-525). -/
def copyAssignment (initialAssignment : List Table) : List Table :=
  initialAssignment.map copyTable

/-- The four `rand.Intn` draws consumed by one swap of `getNeighbour`
(main.go lines 377-388). -/
structure SwapChoice where
  r1 : Nat
  r2 : Nat
  r3 : Nat
  r4 : Nat
deriving DecidableEq, Repr

/-- The update `getNeighbour` applies to one of the two tables of a swap
(main.go lines 394-398): seat `pIn` at index `k`, drop `pOut` from the
membership map and add `pIn` to it. -/
def swappedTable (t : Table) (k : Nat) (pOut pIn : Person) : Table :=
  { t with
    people := t.people.set k pIn,
    peopleMap := (t.peopleMap.remove pOut.name).insert pIn.name true }

/-- One iteration of `getNeighbour`'s swap loop (main.go lines 375-399):
pick two distinct tables, pick one seat in each, swap the two occupants and
update both membership maps.  `none` models a Go panic (an `Intn` argument
that is not positive, or an out-of-range slice index). -/
def swapStep (a : List Table) (c : SwapChoice) : Option (List Table) := do
  let cal := a.length
  let randOne ← intn cal c.r1
  let rawTwo ← intn (cal - 1) c.r2
  let randTwo := if rawTwo ≥ randOne then rawTwo + 1 else rawTwo
  let tableOne ← a[randOne]?
  let tableTwo ← a[randTwo]?
  let randThree ← intn tableOne.capacity c.r3
  let randFour ← intn tableTwo.capacity c.r4
  let personOne ← tableOne.people[randThree]?
  let personTwo ← tableTwo.people[randFour]?
  pure ((a.set randOne (swappedTable tableOne randThree personOne personTwo)).set
    randTwo (swappedTable tableTwo randFour personTwo personOne))

/-- Go `getNeighbour` (main.go lines 369-402): deep-copy the assignment,
then apply `swapCount` swaps; `choices` carries the random draws of each
swap, so `choices.length` is the Go `swapCount`. -/
def getNeighbour (currentAssignment : List Table) (choices : List SwapChoice) :
    Option (List Table) :=
  choices.foldlM swapStep (copyAssignment currentAssignment)

/-! ## Objective functions (main.go lines 405-481) -/

/-- One person's contribution to `sumFunction`'s inner loop (lines 415-419):
the number of their preferences present in the table's membership map. -/
def personSatisfiedPrefs (t : Table) (p : Person) : Nat :=
  p.preferences.countP (fun f => t.peopleMap f)

/-- The plus-one penalty test of lines 411-414 / 435-438: the person has a
registered plus one who is not in the table's membership map. -/
def personViolation (po : PlusOnes) (t : Table) (p : Person) : Bool :=
  match po p.name with
  | some q => !(t.peopleMap q)
  | none => false

/-- The `noOfPenalties` counter accumulated by `sumFunction` and
`countFunction` over all tables and people. -/
def noOfPenalties (po : PlusOnes) (a : List Table) : Nat :=
  (a.map (fun t => t.people.countP (personViolation po t))).sum

/-- The preference total accumulated by `sumFunction` before the penalty
override (lines 408-421). -/
def rawSumScore (a : List Table) : Nat :=
  (a.map (fun t => (t.people.map (personSatisfiedPrefs t)).sum)).sum

/-- Go `sumFunction` (lines 405-426): the preference total, overridden to
`-noOfPenalties` when any penalty was counted. -/
def sumFunction (a : List Table) (po : PlusOnes) : Int :=
  if 0 < noOfPenalties po a then -(noOfPenalties po a : Int) else (rawSumScore a : Int)

/-- The `break`-on-first-match inner loop of `countFunction` (lines 439-444):
the person counts once if any preference is present in the membership map. -/
def personHasSatisfiedPref (t : Table) (p : Person) : Bool :=
  p.preferences.any (fun f => t.peopleMap f)

/-- The people total accumulated by `countFunction` before the penalty
override. -/
def rawCountScore (a : List Table) : Nat :=
  (a.map (fun t => t.people.countP (personHasSatisfiedPref t))).sum

/-- Go `countFunction` (lines 429-451): the count of people with at least
one satisfied preference, overridden to `-noOfPenalties` when any penalty
was counted. -/
def countFunction (a : List Table) (po : PlusOnes) : Int :=
  if 0 < noOfPenalties po a then -(noOfPenalties po a : Int) else (rawCountScore a : Int)

/-- Go `getTotalPrefs` (lines 464-472). -/
def getTotalPrefs (a : List Table) : Nat :=
  (a.map (fun t => (t.people.map (fun p => p.preferences.length)).sum)).sum

/-- Go `getNoOfPeople` (lines 475-481). -/
def getNoOfPeople (a : List Table) : Nat :=
  (a.map (fun t => t.people.length)).sum

/-- Go `hybridFunction` (lines 454-461): `count * max(noOfPeople, totalPrefs)
+ sum`, with `math.Max` on the two nonnegative integer totals being `Nat.max`. -/
def hybridFunction (a : List Table) (po : PlusOnes) : Int :=
  countFunction a po * (max (getNoOfPeople a) (getTotalPrefs a) : Int) + sumFunction a po

/-- The flattened occupant list of an assignment, in table order. -/
def peopleOf (a : List Table) : List Person :=
  (a.map Table.people).flatten

/-- The number of occupants whose preference list is nonempty; an upper
bound for `rawCountScore`. -/
def prefPeople (a : List Table) : Nat :=
  (peopleOf a).countP (fun p => !p.preferences.isEmpty)

/-! ## Metropolis acceptance and the annealer loop (main.go lines 296-366, 483-485) -/

/-- Go `acceptanceProbability` (lines 483-485): `math.Exp((new - old) / T)`
on the integer-valued scores. -/
noncomputable def acceptanceProbability (oldCost newCost : Int) (temperature : ℝ) : ℝ :=
  Real.exp (((newCost : ℝ) - (oldCost : ℝ)) / temperature)

/-- The body of one iteration of `annealerInternalIterator` (lines 344-362)
once the neighbour has been generated: adopt the neighbour if its cost is
strictly greater, otherwise adopt it exactly when the acceptance probability
is strictly greater than the uniform draw (`ap > rand.Float64()`). -/
noncomputable def annealerAcceptStep (cf : List Table → Int)
    (st : List Table × Int) (neighbour : List Table) (temperature draw : ℝ) :
    List Table × Int :=
  let newCost := cf neighbour
  if newCost > st.2 then (neighbour, newCost)
  else if acceptanceProbability st.2 newCost temperature > draw then (neighbour, newCost)
  else st

/-- Go `annealerInternalIterator` (lines 338-366): start from a deep copy of
the candidate and its cost, then run one accept step per internal iteration;
each iteration consumes the swap draws for its neighbour and one uniform
draw.  The channel sends at lines 364-365 are modelled by returning the
final pair; `none` models a panic inside `getNeighbour`. -/
noncomputable def annealerInternalIterator (cf : List Table → Int)
    (temperature : ℝ) (steps : List (List SwapChoice × ℝ))
    (candidateSolution : List Table) : Option (List Table × Int) :=
  steps.foldlM
    (fun st step => (getNeighbour st.1 step.1).map
      (fun nb => annealerAcceptStep cf st nb temperature step.2))
    (copyAssignment candidateSolution, cf (copyAssignment candidateSolution))

/-- The exchange pass of `anneal` (lines 322-327): scan the ladder of
(solution, cost) pairs from the hottest index down to index 1, swapping a
pair with its colder neighbour whenever its cost is strictly greater.
The recursion processes the tail (the hotter indices) first and then
compares the updated index-1 entry with index 0, which is exactly the order
of the Go loop `for i := count - 1; i > 0; i--`. -/
def exchangeCons (x : List Table × Int) :
    List (List Table × Int) → List (List Table × Int)
  | [] => [x]
  | y :: ys => if y.2 > x.2 then y :: x :: ys else x :: y :: ys

/-- The full exchange pass: process the hotter tail first, then compare the
tail's (already updated) head with the current entry — `exchangeCons`. -/
def exchangePass : List (List Table × Int) → List (List Table × Int)
  | [] => []
  | x :: xs => exchangeCons x (exchangePass xs)

/-- The cooling loop of `anneal` (lines 313-331), parameterised by the work
one round performs on the ladder (`roundFn`, lines 315-327, covering the
per-level chain runs and the exchange pass).  The loop runs while
`baseTemperature > finalTemperature` and multiplies the base temperature by
`coolingRate` each round; `fuel` bounds the number of rounds we are willing
to unfold, and `none` means the loop was still running when the fuel ran
out. -/
noncomputable def coolingLoop
    (roundFn : ℝ → List (List Table × Int) → List (List Table × Int))
    (finalTemperature coolingRate : ℝ) :
    Nat → ℝ → List (List Table × Int) → Option (List (List Table × Int))
  | 0, b, st => if b ≤ finalTemperature then some st else none
  | n + 1, b, st =>
    if b ≤ finalTemperature then some st
    else coolingLoop roundFn finalTemperature coolingRate n (b * coolingRate) (roundFn b st)

/-- The value `anneal` returns (line 333): the solution at ladder level 0 of
the state in which the cooling loop terminated. -/
noncomputable def annealResult
    (roundFn : ℝ → List (List Table × Int) → List (List Table × Int))
    (finalTemperature coolingRate : ℝ) (fuel : Nat) (b : ℝ)
    (ladder : List (List Table × Int)) : Option (List Table) :=
  (coolingLoop roundFn finalTemperature coolingRate fuel b ladder).bind
    (fun st => (st[0]?).map Prod.fst)

/-- The scheduling events of one round of `anneal`'s inner loop
(lines 315-319): spawning the goroutine for ladder level `i` and receiving
(joining) its result. -/
inductive RoundEvent where
  | spawn (i : Nat)
  | join (i : Nat)
  | exchange
deriving DecidableEq, Repr

/-- The order of scheduling events in one round of `anneal` (lines 315-327):
the Go loop starts the goroutine for level `i` and then immediately blocks
on the result channels for that same level, so the join of level `i`
precedes the spawn of level `i + 1`; the exchange pass follows the loop. -/
def roundTrace (concurrentAnnealerCount : Nat) : List RoundEvent :=
  (List.range concurrentAnnealerCount).flatMap
    (fun i => [RoundEvent.spawn i, RoundEvent.join i]) ++ [RoundEvent.exchange]

/-! ## Random initialisation (main.go lines 488-506, 579-585) -/

/-- Swap two positions of a list (`people[i], people[j] = people[j],
people[i]`); out-of-range indices cannot occur in the shuffle below. -/
def listSwap (l : List Person) (i j : Nat) : List Person :=
  match l[i]?, l[j]? with
  | some x, some y => (l.set i y).set j x
  | _, _ => l

/-- The Fisher-Yates shuffle of lines 491-494: for each index `i` swap
position `i` with position `rand.Intn (i + 1)`; `js` carries the raw random
draws. -/
def fisherYates (people : List Person) (js : List Nat) : List Person :=
  (List.range people.length).foldl
    (fun ps i => listSwap ps i ((js.getD i 0) % (i + 1))) people

/-- The table-filling loop of `randomInitialisation` (lines 497-504).  Note
the Go loop variable `table` is a copy taken before `assignment[i].people`
is overwritten, so the inner `range table.people` that registers names in
`peopleMap` walks the table's OLD occupant list, not the people just seated.
`none` models the out-of-range slice `people[pos : pos+capacity]`. -/
def fillLoop : List Person → List Table → Option (List Table)
  | _, [] => some []
  | ps, t :: rest =>
    if t.capacity ≤ ps.length then
      (fillLoop (ps.drop t.capacity) rest).map
        (fun tail =>
          { capacity := t.capacity,
            people := ps.take t.capacity,
            peopleMap := (t.people.map Person.name).foldl
              (fun m n => m.insert n true) t.peopleMap } :: tail)
    else none

/-- Go `randomInitialisation` (lines 488-506): shuffle the people, then fill
the tables forwards. -/
def randomInitialisation (people : List Person) (tables : List Table)
    (js : List Nat) : Option (List Table) :=
  fillLoop (fisherYates people js) tables

/-- The table construction in `main` (lines 579-585): each capacity becomes
a table whose `people` slice holds `capacity` zero-valued persons and whose
membership map is empty. -/
def mkTables (capacities : List Nat) : List Table :=
  capacities.map (fun c => ⟨c, List.replicate c zeroPerson, emptyPMap⟩)

/-! ## Occupant-slot differences (for the neighbour frame property) -/

/-- The number of positions at which two occupant lists differ (compared
seat by seat). -/
def peopleDiff : List Person → List Person → Nat
  | x :: xs, y :: ys => (if x = y then 0 else 1) + peopleDiff xs ys
  | _, _ => 0

/-- The number of seats at which two tables' occupant lists differ. -/
def tableDiff (t u : Table) : Nat :=
  peopleDiff t.people u.people

/-- The number of occupant slots at which two assignments differ. -/
def diffCount (a b : List Table) : Nat :=
  ((a.zip b).map (fun tu => tableDiff tu.1 tu.2)).sum

/-- Two assignments with the same number of tables and, table by table, the
same capacity and the same number of seats. -/
def sameShape (a b : List Table) : Prop :=
  a.length = b.length
  ∧ ∀ n : Nat, (a[n]?).map Table.capacity = (b[n]?).map Table.capacity
    ∧ (a[n]?).map (fun t => t.people.length) = (b[n]?).map (fun t => t.people.length)

/-! ## Basic lemmas about the swap machinery -/

theorem intn_bound {n r v : Nat} (h : intn n r = some v) : v < n := by
  unfold intn at h
  split at h
  · cases h
    exact Nat.mod_lt _ (by assumption)
  · cases h

theorem intn_of_pos (n r : Nat) (h : 0 < n) : intn n r = some (r % n) := by
  simp [intn, h]

@[simp] theorem swappedTable_capacity (t : Table) (k : Nat) (pOut pIn : Person) :
    (swappedTable t k pOut pIn).capacity = t.capacity := rfl

@[simp] theorem swappedTable_people_length (t : Table) (k : Nat) (pOut pIn : Person) :
    (swappedTable t k pOut pIn).people.length = t.people.length := by
  simp [swappedTable]

@[simp] theorem copyTable_capacity (t : Table) : (copyTable t).capacity = t.capacity := rfl

@[simp] theorem copyTable_people_length (t : Table) :
    (copyTable t).people.length = t.capacity := by
  simp [copyTable]
  omega

/-- Inversion principle for a successful `swapStep`: it picked two distinct
in-range table indices and one in-range seat in each, and the result is the
input with both tables updated by `swappedTable`. -/
theorem swapStep_inv {a b : List Table} {c : SwapChoice} (h : swapStep a c = some b) :
    ∃ (i j k l : Nat) (t1 t2 : Table) (p1 p2 : Person),
      i < a.length ∧ j < a.length ∧ i ≠ j
      ∧ a[i]? = some t1 ∧ a[j]? = some t2
      ∧ k < t1.people.length ∧ l < t2.people.length
      ∧ t1.people[k]? = some p1 ∧ t2.people[l]? = some p2
      ∧ b = (a.set i (swappedTable t1 k p1 p2)).set j (swappedTable t2 l p2 p1) := by
  simp only [swapStep, Option.bind_eq_bind, Option.bind_eq_some, Option.pure_def,
    Option.some.injEq] at h
  obtain ⟨i, hi, rawTwo, hraw, t1, ht1, t2, ht2, k, hk, l, hl, p1, hp1, p2, hp2, hb⟩ := h
  refine ⟨i, (if rawTwo ≥ i then rawTwo + 1 else rawTwo), k, l, t1, t2, p1, p2,
    ?_, ?_, ?_, ht1, ht2, ?_, ?_, hp1, hp2, hb.symm⟩
  · exact intn_bound hi
  · have h1 := intn_bound hraw
    split <;> omega
  · split <;> omega
  · have := List.getElem?_eq_some.mp hp1
    exact this.1
  · have := List.getElem?_eq_some.mp hp2
    exact this.1

/-- On a single-table assignment the second table draw is `rand.Intn 0`,
which Go panics on: `swapStep` fails. -/
theorem swapStep_single_none (a : List Table) (c : SwapChoice) (h : a.length = 1) :
    swapStep a c = none := by
  simp [swapStep, h, intn]

/-- With at least two tables, every capacity positive and every occupant
list as long as its table's capacity, every draw and every slice index of a
swap is in range, so `swapStep` succeeds. -/
theorem swapStep_wf_some (a : List Table) (c : SwapChoice)
    (h2 : 2 ≤ a.length)
    (hwf : ∀ t ∈ a, 1 ≤ t.capacity ∧ t.people.length = t.capacity) :
    ∃ b, swapStep a c = some b := by
  have hlen : 0 < a.length := by omega
  have hlen1 : 0 < a.length - 1 := by omega
  have hi : c.r1 % a.length < a.length := Nat.mod_lt _ hlen
  have hraw : c.r2 % (a.length - 1) < a.length - 1 := Nat.mod_lt _ hlen1
  set i := c.r1 % a.length with hidef
  set rawTwo := c.r2 % (a.length - 1) with hrawdef
  have hj : (if rawTwo ≥ i then rawTwo + 1 else rawTwo) < a.length := by
    split <;> omega
  set j := (if rawTwo ≥ i then rawTwo + 1 else rawTwo) with hjdef
  have hwf1 := hwf a[i] (a.getElem_mem hi)
  have hwf2 := hwf a[j] (a.getElem_mem hj)
  have hk : c.r3 % a[i].capacity < a[i].people.length := by
    rw [hwf1.2]
    exact Nat.mod_lt _ (by omega)
  have hl : c.r4 % a[j].capacity < a[j].people.length := by
    rw [hwf2.2]
    exact Nat.mod_lt _ (by omega)
  rw [← Option.isSome_iff_exists]
  simp only [swapStep, Option.bind_eq_bind, intn_of_pos _ _ hlen, Option.some_bind,
    intn_of_pos _ _ hlen1, List.getElem?_eq_getElem hi, ← hidef, ← hrawdef, ← hjdef,
    List.getElem?_eq_getElem hj]
  rw [intn_of_pos _ _ (by omega : 0 < a[i].capacity)]
  rw [Option.some_bind, intn_of_pos _ _ (by omega : 0 < a[j].capacity)]
  simp only [Option.some_bind, List.getElem?_eq_getElem hk, List.getElem?_eq_getElem hl,
    Option.pure_def, Option.isSome_some]

/-- A successful `swapStep` preserves the assignment's length and, at every
index, the table's capacity and occupant-list length. -/
theorem swapStep_shape {a b : List Table} {c : SwapChoice} (h : swapStep a c = some b) :
    b.length = a.length
    ∧ ∀ n : Nat, (b[n]?).map Table.capacity = (a[n]?).map Table.capacity
      ∧ (b[n]?).map (fun t => t.people.length) = (a[n]?).map (fun t => t.people.length) := by
  obtain ⟨i, j, k, l, t1, t2, p1, p2, hi, hj, hij, ht1, ht2, hk, hl, hp1, hp2, hb⟩ :=
    swapStep_inv h
  subst hb
  refine ⟨by simp, ?_⟩
  intro n
  rcases eq_or_ne n i with rfl | hni
  · rw [List.getElem?_set_ne (fun hh => hij hh.symm), List.getElem?_set, if_pos rfl,
      if_pos (by simpa using hi), ht1]
    exact ⟨by simp, by simp⟩
  rcases eq_or_ne n j with rfl | hnj
  · rw [List.getElem?_set, if_pos rfl, if_pos (by simpa using hj), ht2]
    exact ⟨by simp, by simp⟩
  · rw [List.getElem?_set_ne (fun hh => hnj hh.symm),
      List.getElem?_set_ne (fun hh => hni hh.symm)]
    exact ⟨rfl, rfl⟩

/-- A successful `swapStep` preserves well-formedness of every table. -/
theorem swapStep_wf_preserved {a b : List Table} {c : SwapChoice}
    (h : swapStep a c = some b)
    (hwf : ∀ t ∈ a, 1 ≤ t.capacity ∧ t.people.length = t.capacity) :
    ∀ t ∈ b, 1 ≤ t.capacity ∧ t.people.length = t.capacity := by
  intro t ht
  obtain ⟨n, hn⟩ := List.mem_iff_getElem?.mp ht
  have hs := (swapStep_shape h).2 n
  rw [hn] at hs
  obtain ⟨u, hu, hcap⟩ := Option.map_eq_some'.mp hs.1.symm
  obtain ⟨u2, hu2, hlen⟩ := Option.map_eq_some'.mp hs.2.symm
  rw [hu] at hu2
  cases hu2
  have hlen2 : u.people.length = t.people.length := hlen
  obtain ⟨hnlt, hget⟩ := List.getElem?_eq_some.mp hu
  have := hwf u (hget ▸ List.getElem_mem hnlt)
  omega

/-- The swap loop of `getNeighbour` succeeds on any well-formed assignment
with at least two tables, whatever the draws. -/
theorem foldlM_swapStep_wf_some (cs : List SwapChoice) :
    ∀ (b : List Table), 2 ≤ b.length →
      (∀ t ∈ b, 1 ≤ t.capacity ∧ t.people.length = t.capacity) →
      (cs.foldlM swapStep b).isSome = true := by
  induction cs with
  | nil => intro b _ _; simp
  | cons c cs ih =>
    intro b h2 hwf
    obtain ⟨b1, hb1⟩ := swapStep_wf_some b c h2 hwf
    have hlen : b1.length = b.length := (swapStep_shape hb1).1
    have := ih b1 (by omega) (swapStep_wf_preserved hb1 hwf)
    simp only [List.foldlM_cons, hb1, Option.bind_eq_bind, Option.some_bind]
    exact this

/-- Lemma: `copyAssignment` keeps every capacity and resizes every occupant list to
exactly its table's capacity. -/
theorem copyAssignment_wf (a : List Table)
    (hcap : ∀ t ∈ a, 1 ≤ t.capacity) :
    ∀ t ∈ copyAssignment a, 1 ≤ t.capacity ∧ t.people.length = t.capacity := by
  intro t ht
  obtain ⟨u, hu, rfl⟩ := List.mem_map.mp ht
  exact ⟨hcap u hu, by simp⟩

/-! ## Lemmas about occupant-slot differences -/

theorem peopleDiff_self (xs : List Person) : peopleDiff xs xs = 0 := by
  induction xs with
  | nil => rfl
  | cons x xs ih => simp [peopleDiff, ih]

theorem peopleDiff_set (xs : List Person) (k : Nat) (p : Person) :
    peopleDiff xs (xs.set k p) ≤ 1 := by
  induction xs generalizing k with
  | nil => simp [peopleDiff]
  | cons x xs ih =>
    cases k with
    | zero =>
      have := peopleDiff_self xs
      simp only [List.set_cons_zero, peopleDiff]
      by_cases h : x = p <;> simp only [h, if_pos, if_neg, if_true, if_false] <;> omega
    | succ k =>
      have := ih k
      simp only [List.set_cons_succ, peopleDiff, if_true]
      omega

theorem peopleDiff_triangle (xs : List Person) :
    ∀ (ys zs : List Person), xs.length = ys.length → ys.length = zs.length →
      peopleDiff xs zs ≤ peopleDiff xs ys + peopleDiff ys zs := by
  induction xs with
  | nil => intro ys zs _ _; cases ys <;> cases zs <;> simp [peopleDiff]
  | cons x xs ih =>
    intro ys zs h1 h2
    match ys, zs with
    | [], _ => simp at h1
    | y :: ys, [] => simp at h2
    | y :: ys, z :: zs =>
      have hr := ih ys zs (by simpa using h1) (by simpa using h2)
      simp only [peopleDiff]
      by_cases hxz : x = z <;> by_cases hxy : x = y
      · simp [hxz, hxy]; omega
      · simp [hxz, hxy]; omega
      · subst hxy
        simp [hxz]
        omega
      · simp [hxz, hxy]
        by_cases hyz : y = z <;> simp [hyz] <;> omega

theorem diffCount_self (a : List Table) : diffCount a a = 0 := by
  induction a with
  | nil => rfl
  | cons t ts ih =>
    simpa [diffCount, tableDiff, peopleDiff_self] using ih

theorem diffCount_set_le (a : List Table) :
    ∀ (i : Nat) (t u : Table), a[i]? = some t →
      diffCount a (a.set i u) ≤ tableDiff t u := by
  induction a with
  | nil => intro i t u h; simp at h
  | cons x xs ih =>
    intro i t u h
    cases i with
    | zero =>
      simp only [List.getElem?_cons_zero, Option.some.injEq] at h
      subst h
      have := diffCount_self xs
      simp only [List.set_cons_zero, diffCount, List.zip_cons_cons, List.map_cons,
        List.sum_cons] at this ⊢
      omega
    | succ i =>
      simp only [List.getElem?_cons_succ] at h
      have := ih i t u h
      have hself := peopleDiff_self x.people
      simp only [List.set_cons_succ, diffCount, List.zip_cons_cons, List.map_cons,
        List.sum_cons, tableDiff] at this ⊢
      omega

theorem sameShape_refl (a : List Table) : sameShape a a := ⟨rfl, fun _ => ⟨rfl, rfl⟩⟩

theorem sameShape_trans {a b c : List Table} (h1 : sameShape a b) (h2 : sameShape b c) :
    sameShape a c :=
  ⟨h1.1.trans h2.1, fun n => ⟨(h1.2 n).1.trans (h2.2 n).1, (h1.2 n).2.trans (h2.2 n).2⟩⟩

/-- The per-index people-length equality of `sameShape`, extracted at a pair
of defined entries. -/
theorem sameShape_people_length {a b : List Table} (h : sameShape a b) {n : Nat}
    {t u : Table} (ht : a[n]? = some t) (hu : b[n]? = some u) :
    t.people.length = u.people.length := by
  have := (h.2 n).2
  rw [ht, hu] at this
  simpa using this

theorem diffCount_triangle (a : List Table) :
    ∀ (b c : List Table), sameShape a b → sameShape b c →
      diffCount a c ≤ diffCount a b + diffCount b c := by
  induction a with
  | nil => intro b c _ _; simp [diffCount]
  | cons x xs ih =>
    intro b c hab hbc
    match b, c with
    | [], _ => exact absurd hab.1 (by simp)
    | _ :: _, [] => exact absurd hbc.1 (by simp)
    | y :: ys, z :: zs =>
      have htab : sameShape xs ys :=
        ⟨by simpa using hab.1, fun n => by simpa using hab.2 (n + 1)⟩
      have htbc : sameShape ys zs :=
        ⟨by simpa using hbc.1, fun n => by simpa using hbc.2 (n + 1)⟩
      have hxy : x.people.length = y.people.length :=
        sameShape_people_length hab (n := 0) (by simp) (by simp)
      have hyz : y.people.length = z.people.length :=
        sameShape_people_length hbc (n := 0) (by simp) (by simp)
      have hhead := peopleDiff_triangle x.people y.people z.people hxy hyz
      have hrest := ih ys zs htab htbc
      simp only [diffCount, List.zip_cons_cons, List.map_cons, List.sum_cons,
        tableDiff] at hrest ⊢
      omega

theorem sameShape_set {a : List Table} {i : Nat} {t u : Table}
    (ht : a[i]? = some t) (hcap : u.capacity = t.capacity)
    (hlen : u.people.length = t.people.length) :
    sameShape a (a.set i u) := by
  have hi : i < a.length := (List.getElem?_eq_some.mp ht).1
  refine ⟨by simp, ?_⟩
  intro n
  rcases eq_or_ne i n with rfl | hne
  · rw [List.getElem?_set, if_pos rfl, if_pos hi, ht]
    simp [hcap, hlen]
  · rw [List.getElem?_set_ne hne]
    exact ⟨rfl, rfl⟩

/-- A successful `swapStep` changes at most two occupant slots. -/
theorem swapStep_diff {a b : List Table} {c : SwapChoice} (h : swapStep a c = some b) :
    sameShape a b ∧ diffCount a b ≤ 2 := by
  obtain ⟨i, j, k, l, t1, t2, p1, p2, hi, hj, hij, ht1, ht2, hk, hl, hp1, hp2, hb⟩ :=
    swapStep_inv h
  subst hb
  have hm1 : sameShape a (a.set i (swappedTable t1 k p1 p2)) :=
    sameShape_set ht1 rfl (by simp [swappedTable])
  have hmj : (a.set i (swappedTable t1 k p1 p2))[j]? = some t2 := by
    rw [List.getElem?_set_ne hij, ht2]
  have hm2 : sameShape (a.set i (swappedTable t1 k p1 p2))
      ((a.set i (swappedTable t1 k p1 p2)).set j (swappedTable t2 l p2 p1)) :=
    sameShape_set hmj rfl (by simp [swappedTable])
  have hd1 : diffCount a (a.set i (swappedTable t1 k p1 p2)) ≤ 1 := by
    refine le_trans (diffCount_set_le a i t1 _ ht1) ?_
    simpa [tableDiff, swappedTable] using peopleDiff_set t1.people k p2
  have hd2 : diffCount (a.set i (swappedTable t1 k p1 p2))
      ((a.set i (swappedTable t1 k p1 p2)).set j (swappedTable t2 l p2 p1)) ≤ 1 := by
    refine le_trans (diffCount_set_le _ j t2 _ hmj) ?_
    simpa [tableDiff, swappedTable] using peopleDiff_set t2.people l p1
  have htri := diffCount_triangle a _ _ hm1 hm2
  exact ⟨sameShape_trans hm1 hm2, by omega⟩

/-- The swap loop changes at most two occupant slots per consumed choice. -/
theorem foldlM_swapStep_frame (cs : List SwapChoice) :
    ∀ (b r : List Table), cs.foldlM swapStep b = some r →
      sameShape b r ∧ diffCount b r ≤ 2 * cs.length := by
  induction cs with
  | nil =>
    intro b r h
    simp only [List.foldlM_nil, Option.pure_def, Option.some.injEq] at h
    subst h
    exact ⟨sameShape_refl b, by simp [diffCount_self]⟩
  | cons c cs ih =>
    intro b r h
    simp only [List.foldlM_cons, Option.bind_eq_bind, Option.bind_eq_some] at h
    obtain ⟨b1, hb1, hrest⟩ := h
    obtain ⟨hs1, hd1⟩ := swapStep_diff hb1
    obtain ⟨hs2, hd2⟩ := ih b1 r hrest
    have htri := diffCount_triangle b b1 r hs1 hs2
    refine ⟨sameShape_trans hs1 hs2, ?_⟩
    simp only [List.length_cons]
    omega

theorem copyTable_people_eq {t : Table} (h : t.people.length = t.capacity) :
    (copyTable t).people = t.people := by
  rw [copyTable]
  simp [← h]

/-- Under the length invariant, `copyAssignment` is shape- and
content-preserving on occupant lists. -/
theorem copyAssignment_frame (a : List Table)
    (hwf : ∀ t ∈ a, t.people.length = t.capacity) :
    sameShape a (copyAssignment a) ∧ diffCount a (copyAssignment a) = 0 := by
  constructor
  · refine ⟨by simp [copyAssignment], ?_⟩
    intro n
    rcases hn : a[n]? with _ | t
    · simp [copyAssignment, List.getElem?_map, hn]
    · have ht : t ∈ a := (List.getElem?_eq_some.mp hn).2 ▸
        List.getElem_mem (List.getElem?_eq_some.mp hn).1
      simp [copyAssignment, List.getElem?_map, hn, hwf t ht]
  · induction a with
    | nil => rfl
    | cons t ts ih =>
      have hh := hwf t (by simp)
      have ht := ih (fun u hu => hwf u (by simp [hu]))
      simp only [copyAssignment, List.map_cons, diffCount, List.zip_cons_cons,
        List.map_cons, List.sum_cons, tableDiff, copyTable_people_eq hh,
        peopleDiff_self] at ht ⊢
      simpa [copyAssignment, diffCount] using ht

/-- Claim C5. Whenever `getNeighbour` returns (no panic) on an assignment
whose occupant lists match their capacities, the result has the same shape
(table count, capacities, seat counts) and differs from the input in at most
`2 * swapCount` occupant slots — all other slots are identical, which is
what `diffCount` measures; the input itself is untouched, the swaps acting
on the deep copy made by `copyAssignment`. -/
theorem getNeighbour_frame (a b : List Table) (cs : List SwapChoice)
    (hwf : ∀ t ∈ a, t.people.length = t.capacity)
    (h : getNeighbour a cs = some b) :
    sameShape a b ∧ diffCount a b ≤ 2 * cs.length := by
  obtain ⟨hs0, hd0⟩ := copyAssignment_frame a hwf
  obtain ⟨hs1, hd1⟩ := foldlM_swapStep_frame cs (copyAssignment a) b h
  have htri := diffCount_triangle a _ b hs0 hs1
  exact ⟨sameShape_trans hs0 hs1, by omega⟩

/-- Witness for `getNeighbour_frame` with one swap across two one-seat
tables: the two occupants trade places, a difference of exactly two slots. -/
theorem getNeighbour_frame_witness :
    sameShape [⟨1, [⟨"a", []⟩], emptyPMap⟩, ⟨1, [⟨"b", []⟩], emptyPMap⟩]
      [⟨1, [⟨"b", []⟩], (emptyPMap.remove "a").insert "b" true⟩,
       ⟨1, [⟨"a", []⟩], (emptyPMap.remove "b").insert "a" true⟩]
    ∧ diffCount [⟨1, [⟨"a", []⟩], emptyPMap⟩, ⟨1, [⟨"b", []⟩], emptyPMap⟩]
      [⟨1, [⟨"b", []⟩], (emptyPMap.remove "a").insert "b" true⟩,
       ⟨1, [⟨"a", []⟩], (emptyPMap.remove "b").insert "a" true⟩]
      ≤ 2 * List.length [(⟨0, 0, 0, 0⟩ : SwapChoice)] :=
  getNeighbour_frame _ _ [⟨0, 0, 0, 0⟩] (by decide) rfl

/-- Claim C2. If at least one plus-one penalty is counted for an assignment,
`sumFunction` and `countFunction` both return exactly `-noOfPenalties`, a
strictly negative value, hence strictly less than the score either function
gives any assignment with zero penalties (such scores being nonnegative). -/
theorem sum_count_penalty_override (po : PlusOnes) (a : List Table)
    (h : 0 < noOfPenalties po a) :
    sumFunction a po = -(noOfPenalties po a : Int)
    ∧ countFunction a po = -(noOfPenalties po a : Int)
    ∧ sumFunction a po < 0
    ∧ countFunction a po < 0
    ∧ ∀ b : List Table, noOfPenalties po b = 0 →
        0 ≤ sumFunction b po ∧ 0 ≤ countFunction b po
        ∧ sumFunction a po < sumFunction b po
        ∧ countFunction a po < countFunction b po := by
  have hs : sumFunction a po = -(noOfPenalties po a : Int) := by
    simp [sumFunction, h]
  have hc : countFunction a po = -(noOfPenalties po a : Int) := by
    simp [countFunction, h]
  have hneg : -(noOfPenalties po a : Int) < 0 := by
    have : (0 : Int) < (noOfPenalties po a : Int) := by exact_mod_cast h
    omega
  refine ⟨hs, hc, by omega, by omega, ?_⟩
  intro b hb
  have hsb : sumFunction b po = (rawSumScore b : Int) := by
    simp [sumFunction, hb]
  have hcb : countFunction b po = (rawCountScore b : Int) := by
    simp [countFunction, hb]
  have h1 : (0 : Int) ≤ (rawSumScore b : Int) := Int.ofNat_nonneg _
  have h2 : (0 : Int) ≤ (rawCountScore b : Int) := Int.ofNat_nonneg _
  exact ⟨by omega, by omega, by omega, by omega⟩

/-- Witness for `sum_count_penalty_override`: a two-table assignment where
person "x" has plus-one "y" seated at the other table. -/
theorem sum_count_penalty_override_witness :
    0 < noOfPenalties (fun s => if s = "x" then some "y" else none)
        [⟨1, [⟨"x", []⟩], emptyPMap⟩, ⟨1, [⟨"y", []⟩], emptyPMap⟩]
    ∧ sumFunction [⟨1, [⟨"x", []⟩], emptyPMap⟩, ⟨1, [⟨"y", []⟩], emptyPMap⟩]
        (fun s => if s = "x" then some "y" else none) = -1 := by
  have h : 0 < noOfPenalties (fun s => if s = "x" then some "y" else none)
      [⟨1, [⟨"x", []⟩], emptyPMap⟩, ⟨1, [⟨"y", []⟩], emptyPMap⟩] := by
    decide
  have h2 := sum_count_penalty_override (fun s => if s = "x" then some "y" else none)
    [⟨1, [⟨"x", []⟩], emptyPMap⟩, ⟨1, [⟨"y", []⟩], emptyPMap⟩] h
  refine ⟨h, ?_⟩
  rw [h2.1]
  decide

/-- Claim C7, counterexample. An assignment with one penalty (person "x" has
plus-one "y" at the other table): `hybridFunction` returns
`(-1) * max 2 0 + (-1) = -3`, not the `-noOfPenalties = -1` that
`sumFunction` and `countFunction` return, refuting the claim that the
override yields the same value for all three functions. -/
theorem hybrid_override_counterexample :
    0 < noOfPenalties (fun s => if s = "x" then some "y" else none)
        [⟨1, [⟨"x", []⟩], emptyPMap⟩, ⟨1, [⟨"y", []⟩], emptyPMap⟩]
    ∧ sumFunction [⟨1, [⟨"x", []⟩], emptyPMap⟩, ⟨1, [⟨"y", []⟩], emptyPMap⟩]
        (fun s => if s = "x" then some "y" else none) = -1
    ∧ countFunction [⟨1, [⟨"x", []⟩], emptyPMap⟩, ⟨1, [⟨"y", []⟩], emptyPMap⟩]
        (fun s => if s = "x" then some "y" else none) = -1
    ∧ hybridFunction [⟨1, [⟨"x", []⟩], emptyPMap⟩, ⟨1, [⟨"y", []⟩], emptyPMap⟩]
        (fun s => if s = "x" then some "y" else none) = -3 := by
  refine ⟨by decide, by decide, by decide, by decide⟩

/-- Claim C7, amended. When at least one penalty is counted, `hybridFunction`
composes the two already-overridden scores: it returns
`(-noOfPenalties) * max(noOfPeople, totalPrefs) + (-noOfPenalties)`, which
is strictly negative and at most `-noOfPenalties` (so violations still
dominate, and any zero-penalty assignment scores strictly higher), but is
not the value `-noOfPenalties` itself in general. -/
theorem hybrid_penalty_override (po : PlusOnes) (a : List Table)
    (h : 0 < noOfPenalties po a) :
    hybridFunction a po
      = -(noOfPenalties po a : Int) * (max (getNoOfPeople a) (getTotalPrefs a) : Int)
        + -(noOfPenalties po a : Int)
    ∧ hybridFunction a po < 0
    ∧ hybridFunction a po ≤ -(noOfPenalties po a : Int)
    ∧ ∀ b : List Table, noOfPenalties po b = 0 →
        hybridFunction a po < hybridFunction b po := by
  have hp : (0 : Int) < (noOfPenalties po a : Int) := by exact_mod_cast h
  have hM : (0 : Int) ≤ (max (getNoOfPeople a) (getTotalPrefs a) : Int) :=
    le_trans (Int.ofNat_nonneg _) le_sup_left
  have hc : countFunction a po = -(noOfPenalties po a : Int) := by
    simp [countFunction, h]
  have hs : sumFunction a po = -(noOfPenalties po a : Int) := by
    simp [sumFunction, h]
  have he : hybridFunction a po
      = -(noOfPenalties po a : Int) * (max (getNoOfPeople a) (getTotalPrefs a) : Int)
        + -(noOfPenalties po a : Int) := by
    rw [hybridFunction, hc, hs]
  have hprod : (0 : Int) ≤ (noOfPenalties po a : Int)
      * (max (getNoOfPeople a) (getTotalPrefs a) : Int) :=
    mul_nonneg (le_of_lt hp) hM
  have hval : -(noOfPenalties po a : Int)
      * (max (getNoOfPeople a) (getTotalPrefs a) : Int) ≤ 0 := by
    rw [neg_mul]
    omega
  refine ⟨he, by omega, by omega, ?_⟩
  intro b hb
  have hcb : countFunction b po = (rawCountScore b : Int) := by
    simp [countFunction, hb]
  have hsb : sumFunction b po = (rawSumScore b : Int) := by
    simp [sumFunction, hb]
  have hbnn : (0 : Int) ≤ hybridFunction b po := by
    rw [hybridFunction, hcb, hsb]
    have h1 : (0 : Int) ≤ (rawCountScore b : Int)
        * (max (getNoOfPeople b) (getTotalPrefs b) : Int) :=
      mul_nonneg (Int.ofNat_nonneg _) (le_trans (Int.ofNat_nonneg _) le_sup_left)
    have h2 : (0 : Int) ≤ (rawSumScore b : Int) := Int.ofNat_nonneg _
    omega
  omega

/-- Witness for `hybrid_penalty_override` at the assignment of the C7
counterexample. -/
theorem hybrid_penalty_override_witness :
    hybridFunction [⟨1, [⟨"x", []⟩], emptyPMap⟩, ⟨1, [⟨"y", []⟩], emptyPMap⟩]
      (fun s => if s = "x" then some "y" else none) < 0 :=
  (hybrid_penalty_override (fun s => if s = "x" then some "y" else none)
    [⟨1, [⟨"x", []⟩], emptyPMap⟩, ⟨1, [⟨"y", []⟩], emptyPMap⟩] (by decide)).2.1

/-- Claim C10. With at least one swap requested, `getNeighbour` panics on a
single-table assignment (its second table draw is `rand.Intn 0`), while on
any assignment with at least two tables, all capacities positive and every
occupant list exactly as long as its capacity, every draw and slice index is
in range and `getNeighbour` succeeds. -/
theorem getNeighbour_safety :
    (∀ (a : List Table) (cs : List SwapChoice), a.length = 1 → 1 ≤ cs.length →
      getNeighbour a cs = none)
    ∧ ∀ (a : List Table) (cs : List SwapChoice), 2 ≤ a.length →
      (∀ t ∈ a, 1 ≤ t.capacity ∧ t.people.length = t.capacity) →
      (getNeighbour a cs).isSome = true := by
  constructor
  · intro a cs h1 hcs
    match cs with
    | c :: rest =>
      have hcopy : (copyAssignment a).length = 1 := by
        simp [copyAssignment, h1]
      have : swapStep (copyAssignment a) c = none := swapStep_single_none _ c hcopy
      simp [getNeighbour, List.foldlM_cons, this]
  · intro a cs h2 hwf
    have hcopylen : (copyAssignment a).length = a.length := by simp [copyAssignment]
    exact foldlM_swapStep_wf_some cs (copyAssignment a) (by omega)
      (copyAssignment_wf a (fun t ht => (hwf t ht).1))

/-- Witness for `getNeighbour_safety`: one swap on a one-table assignment
fails, one swap on a well-formed two-table assignment succeeds. -/
theorem getNeighbour_safety_witness :
    getNeighbour [⟨1, [⟨"a", []⟩], emptyPMap⟩] [⟨0, 0, 0, 0⟩] = none
    ∧ (getNeighbour [⟨1, [⟨"a", []⟩], emptyPMap⟩, ⟨1, [⟨"b", []⟩], emptyPMap⟩]
        [⟨0, 0, 0, 0⟩]).isSome = true :=
  ⟨getNeighbour_safety.1 _ _ (by decide) (by decide),
   getNeighbour_safety.2 _ _ (by decide) (by decide)⟩

/-- Claim C4. One iteration of `annealerInternalIterator` adopts the neighbour
as the new (solution, cost) state exactly when its cost is strictly greater
than the current cost, or — its cost being less than or equal — the uniform
draw is strictly below `exp((newCost - oldCost) / temperature)`; in every
other case the current state is kept unchanged. -/
theorem annealer_accept_spec (cf : List Table → Int) (st : List Table × Int)
    (nb : List Table) (temperature draw : ℝ) :
    (cf nb > st.2 ∨ (cf nb ≤ st.2 ∧ draw < acceptanceProbability st.2 (cf nb) temperature) →
      annealerAcceptStep cf st nb temperature draw = (nb, cf nb))
    ∧ (cf nb ≤ st.2 → ¬(draw < acceptanceProbability st.2 (cf nb) temperature) →
      annealerAcceptStep cf st nb temperature draw = st) := by
  constructor
  · intro h
    rcases h with h | ⟨h1, h2⟩
    · simp [annealerAcceptStep, h]
    · have hn : ¬(cf nb > st.2) := not_lt.mpr h1
      simp [annealerAcceptStep, hn, h2]
  · intro h1 h2
    have hn : ¬(cf nb > st.2) := not_lt.mpr h1
    simp only [annealerAcceptStep, if_neg hn, gt_iff_lt, if_neg h2]

/-- Witness for `annealer_accept_spec`: a strictly better neighbour is
adopted unconditionally. -/
theorem annealer_accept_spec_witness :
    annealerAcceptStep (fun _ => 5) ([], 3) [⟨1, [⟨"a", []⟩], emptyPMap⟩] 1 0
      = ([⟨1, [⟨"a", []⟩], emptyPMap⟩], 5) :=
  (annealer_accept_spec (fun _ => 5) ([], 3) [⟨1, [⟨"a", []⟩], emptyPMap⟩] 1 0).1
    (Or.inl (by norm_num))

/-! ## Termination of the cooling loop -/

theorem coolingLoop_of_bound
    (roundFn : ℝ → List (List Table × Int) → List (List Table × Int)) (f c : ℝ) :
    ∀ (fuel : Nat) (b : ℝ) (st : List (List Table × Int)),
      b * c ^ fuel ≤ f →
      ∃ out, coolingLoop roundFn f c fuel b st = some out := by
  intro fuel
  induction fuel with
  | zero =>
    intro b st h
    rw [pow_zero, mul_one] at h
    exact ⟨st, by simp [coolingLoop, h]⟩
  | succ n ih =>
    intro b st h
    by_cases hb : b ≤ f
    · exact ⟨st, by simp [coolingLoop, hb]⟩
    · have hstep : (b * c) * c ^ n ≤ f := by
        have : (b * c) * c ^ n = b * c ^ (n + 1) := by ring
        rw [this]
        exact h
      obtain ⟨out, hout⟩ := ih (b * c) (roundFn b st) hstep
      exact ⟨out, by simp [coolingLoop, hb, hout]⟩

theorem cooling_fuel_exists (b f c : ℝ) (hc1 : c < 1) (hf : 0 < f) :
    ∃ n : Nat, b * c ^ n ≤ f := by
  by_cases hb : b ≤ f
  · exact ⟨0, by simpa using hb⟩
  · have hbpos : 0 < b := lt_trans hf (not_le.mp hb)
    obtain ⟨n, hn⟩ := exists_pow_lt_of_lt_one (div_pos hf hbpos) hc1
    refine ⟨n, le_of_lt ?_⟩
    have h2 : c ^ n * b < f := (lt_div_iff₀ hbpos).mp hn
    calc b * c ^ n = c ^ n * b := by ring
    _ < f := h2

/-- Claim C6. With a cooling rate in (0, 1) and a positive final temperature,
the cooling loop of `anneal` reaches `baseTemperature ≤ finalTemperature`
after finitely many rounds — some finite fuel makes the fuelled loop exit
normally (it checks the condition at the top of every round) — and `anneal`
then returns the solution at ladder level 0 of the final state. -/
theorem anneal_cooling_terminates
    (roundFn : ℝ → List (List Table × Int) → List (List Table × Int))
    (b f c : ℝ) (ladder : List (List Table × Int))
    (_hc0 : 0 < c) (hc1 : c < 1) (hf : 0 < f) :
    ∃ (fuel : Nat) (final : List (List Table × Int)),
      coolingLoop roundFn f c fuel b ladder = some final
      ∧ annealResult roundFn f c fuel b ladder = (final[0]?).map Prod.fst := by
  obtain ⟨n, hn⟩ := cooling_fuel_exists b f c hc1 hf
  obtain ⟨out, hout⟩ := coolingLoop_of_bound roundFn f c n b ladder hn
  exact ⟨n, out, hout, by simp [annealResult, hout]⟩

/-- Witness for `anneal_cooling_terminates` with cooling rate 1/2,
temperatures 1 and 1, and the identity round on an empty ladder. -/
theorem anneal_cooling_terminates_witness :
    ∃ (fuel : Nat) (final : List (List Table × Int)),
      coolingLoop (fun _ st => st) 1 (1 / 2) fuel 1 [] = some final
      ∧ annealResult (fun _ st => st) 1 (1 / 2) fuel 1 [] = (final[0]?).map Prod.fst :=
  anneal_cooling_terminates (fun _ st => st) 1 1 (1 / 2) []
    (by norm_num) (by norm_num) (by norm_num)

/-- Claim C9. After one exchange pass over a nonempty ladder, the entry at
index 0 (the coldest level) is one of the round's (solution, cost) pairs and
its cost is the maximum cost in the ladder; the pass as a whole only permutes
the ladder's entries (it is a single adjacent sweep, not a sort). -/
theorem exchangePass_best_to_head (l : List (List Table × Int)) (hl : l ≠ []) :
    ∃ y ys, exchangePass l = y :: ys
      ∧ y ∈ l ∧ (∀ z ∈ l, z.2 ≤ y.2)
      ∧ (exchangePass l).Perm l := by
  induction l with
  | nil => exact absurd rfl hl
  | cons x xs ih =>
    cases xs with
    | nil =>
      exact ⟨x, [], by simp [exchangePass, exchangeCons], by simp, by simp,
        by simp [exchangePass, exchangeCons]⟩
    | cons x2 xs2 =>
      obtain ⟨y, ys, hy, hmem, hmax, hperm⟩ := ih (by simp)
      rw [hy] at hperm
      have hstep : exchangePass (x :: x2 :: xs2) = exchangeCons x (y :: ys) := by
        rw [exchangePass, hy]
      by_cases hcmp : y.2 > x.2
      · refine ⟨y, x :: ys, ?_, ?_, ?_, ?_⟩
        · rw [hstep]; simp [exchangeCons, hcmp]
        · exact List.mem_cons_of_mem x hmem
        · intro z hz
          rcases List.mem_cons.mp hz with rfl | hz2
          · exact le_of_lt hcmp
          · exact hmax z hz2
        · rw [hstep]
          simp only [exchangeCons, if_pos hcmp]
          exact List.Perm.trans (List.Perm.swap x y ys) (List.Perm.cons x hperm)
      · refine ⟨x, y :: ys, ?_, ?_, ?_, ?_⟩
        · rw [hstep]; simp [exchangeCons, hcmp]
        · exact List.mem_cons_self x _
        · intro z hz
          rcases List.mem_cons.mp hz with rfl | hz2
          · exact le_refl _
          · exact le_trans (hmax z hz2) (not_lt.mp hcmp)
        · rw [hstep]
          simp only [exchangeCons, if_neg hcmp]
          exact List.Perm.cons x hperm

/-- Witness for `exchangePass_best_to_head` on a two-level ladder whose
hotter level has the better score. -/
theorem exchangePass_best_to_head_witness :
    ∃ y ys, exchangePass ([([], 1), ([], 5)] : List (List Table × Int)) = y :: ys
      ∧ y ∈ ([([], 1), ([], 5)] : List (List Table × Int))
      ∧ (∀ z ∈ ([([], 1), ([], 5)] : List (List Table × Int)), z.2 ≤ y.2)
      ∧ (exchangePass ([([], 1), ([], 5)] : List (List Table × Int))).Perm
          ([([], 1), ([], 5)] : List (List Table × Int)) :=
  exchangePass_best_to_head ([([], 1), ([], 5)] : List (List Table × Int)) (by simp)

/-- Claim C8, code bug. With two ladder levels, the coordinator's round
schedule is spawn 0, join 0, spawn 1, join 1, exchange: the result of level
0 is received (the goroutine has finished its work and sent it) strictly
before level 1 is even spawned, because the blocking channel receives sit
inside the spawn loop (main.go lines 315-319).  The levels therefore run
one at a time, not concurrently; only the barrier-before-exchange part of
the claim holds. -/
theorem round_schedule_sequential :
    roundTrace 2 = [RoundEvent.spawn 0, RoundEvent.join 0, RoundEvent.spawn 1,
      RoundEvent.join 1, RoundEvent.exchange]
    ∧ (roundTrace 2).indexOf (RoundEvent.join 0)
        < (roundTrace 2).indexOf (RoundEvent.spawn 1) := by
  exact ⟨by decide, by decide⟩

/-- Claim C1, code bug. Random initialisation on two people and two one-seat
tables (total capacity = number of people): the occupant lists correctly
partition the shuffled people, but each table's membership map ends up as
`{"" ↦ true}` — the inner registration loop of `randomInitialisation`
ranges over the stale pre-assignment placeholder occupants of the Go loop
variable, not the people just seated — so the map does not contain the
names of the table's occupants. -/
theorem randomInitialisation_peopleMap_bug :
    ((randomInitialisation [⟨"alice", []⟩, ⟨"bob", []⟩] (mkTables [1, 1]) [0, 0]).bind
      (fun ts => ts[0]?)).map
      (fun t => (t.people.map Person.name, t.peopleMap "bob", t.peopleMap "alice",
        t.peopleMap ""))
      = some (["bob"], false, false, true) := by
  decide

/-! ## Lemmas for the hybrid count-first ordering -/

theorem sum_map_le {α : Type} (l : List α) (f g : α → Nat)
    (h : ∀ x ∈ l, f x ≤ g x) : (l.map f).sum ≤ (l.map g).sum := by
  induction l with
  | nil => simp
  | cons x xs ih =>
    have h1 := h x (by simp)
    have h2 := ih (fun y hy => h y (by simp [hy]))
    simp only [List.map_cons, List.sum_cons]
    omega

theorem sum_map_eq_elem {α : Type} (l : List α) (f g : α → Nat)
    (hle : ∀ x ∈ l, f x ≤ g x) (heq : (l.map f).sum = (l.map g).sum) :
    ∀ x ∈ l, f x = g x := by
  induction l with
  | nil => simp
  | cons x xs ih =>
    have h1 := hle x (by simp)
    have h2 := sum_map_le xs f g (fun y hy => hle y (by simp [hy]))
    simp only [List.map_cons, List.sum_cons] at heq
    have hx : f x = g x := by omega
    have ht : (xs.map f).sum = (xs.map g).sum := by omega
    intro y hy
    rcases List.mem_cons.mp hy with rfl | hy2
    · exact hx
    · exact ih (fun z hz => hle z (by simp [hz])) ht y hy2

theorem sum_map_congr {α : Type} (l : List α) (f g : α → Nat)
    (h : ∀ x ∈ l, f x = g x) : (l.map f).sum = (l.map g).sum :=
  le_antisymm (sum_map_le l f g fun x hx => le_of_eq (h x hx))
    (sum_map_le l g f fun x hx => le_of_eq (h x hx).symm)

theorem getNoOfPeople_eq (a : List Table) : getNoOfPeople a = (peopleOf a).length := by
  induction a with
  | nil => rfl
  | cons t ts ih =>
    simp only [getNoOfPeople, peopleOf, List.map_cons, List.sum_cons,
      List.flatten_cons, List.length_append] at ih ⊢
    omega

theorem getTotalPrefs_eq (a : List Table) :
    getTotalPrefs a = ((peopleOf a).map (fun p => p.preferences.length)).sum := by
  induction a with
  | nil => rfl
  | cons t ts ih =>
    simp only [getTotalPrefs, peopleOf, List.map_cons, List.sum_cons,
      List.flatten_cons, List.map_append, List.sum_append] at ih ⊢
    omega

theorem prefPeople_eq (a : List Table) :
    prefPeople a
      = (a.map (fun t => t.people.countP (fun p => !p.preferences.isEmpty))).sum := by
  induction a with
  | nil => rfl
  | cons t ts ih =>
    simp only [prefPeople, peopleOf, List.map_cons, List.sum_cons,
      List.flatten_cons, List.countP_append] at ih ⊢
    omega

theorem rawSumScore_le_totalPrefs (a : List Table) : rawSumScore a ≤ getTotalPrefs a := by
  apply sum_map_le
  intro t _
  apply sum_map_le
  intro p _
  unfold personSatisfiedPrefs
  exact List.countP_le_length _

theorem rawCountScore_le_prefPeople (a : List Table) :
    rawCountScore a ≤ prefPeople a := by
  rw [prefPeople_eq]
  apply sum_map_le
  intro t _
  apply List.countP_mono_left
  intro p _ hsat
  unfold personHasSatisfiedPref at hsat
  cases hp2 : p.preferences with
  | nil => rw [hp2] at hsat; simp at hsat
  | cons f fs => simp [hp2]

/-- If every single preference in the assignment is satisfied, then every
person with a nonempty preference list is counted by `rawCountScore`. -/
theorem count_eq_of_sum_saturated (a : List Table)
    (h : rawSumScore a = getTotalPrefs a) : rawCountScore a = prefPeople a := by
  rw [prefPeople_eq]
  have htable := sum_map_eq_elem a
    (fun t => (t.people.map (personSatisfiedPrefs t)).sum)
    (fun t => (t.people.map (fun p => p.preferences.length)).sum)
    (fun t _ => sum_map_le _ _ _ (fun p _ => by
      unfold personSatisfiedPrefs; exact List.countP_le_length _))
    (show (a.map (fun t => (t.people.map (personSatisfiedPrefs t)).sum)).sum
      = (a.map (fun t => (t.people.map (fun p => p.preferences.length)).sum)).sum from h)
  apply sum_map_congr
  intro t ht
  have hp := sum_map_eq_elem t.people (personSatisfiedPrefs t)
    (fun p => p.preferences.length)
    (fun p _ => by unfold personSatisfiedPrefs; exact List.countP_le_length _)
    (htable t ht)
  apply List.countP_congr
  intro p hpp
  have hsat := hp p hpp
  unfold personSatisfiedPrefs at hsat
  cases hcase : p.preferences with
  | nil => simp [personHasSatisfiedPref, hcase]
  | cons f fs =>
    have hall := List.countP_eq_length.mp hsat
    have hf : t.peopleMap f = true := hall f (by rw [hcase]; simp)
    simp [personHasSatisfiedPref, hcase, List.any_cons, hf]

/-- Claim C3. For assignments over the same people with zero companion
violations, `hybridFunction` is `countFunction * max(noOfPeople, totalPrefs)
+ sumFunction`, and the induced order is count-first lexicographic: whatever
the two sum scores, a strictly greater count score forces a strictly greater
hybrid score. -/
theorem hybrid_lexicographic (po : PlusOnes) (A B : List Table)
    (hA : noOfPenalties po A = 0) (hB : noOfPenalties po B = 0)
    (hperm : (peopleOf A).Perm (peopleOf B)) :
    hybridFunction A po
      = countFunction A po * (max (getNoOfPeople A) (getTotalPrefs A) : Int)
        + sumFunction A po
    ∧ (countFunction B po < countFunction A po →
        hybridFunction B po < hybridFunction A po) := by
  have hNpeople : getNoOfPeople B = getNoOfPeople A := by
    rw [getNoOfPeople_eq, getNoOfPeople_eq, hperm.length_eq]
  have hPrefs : getTotalPrefs B = getTotalPrefs A := by
    rw [getTotalPrefs_eq, getTotalPrefs_eq,
      (hperm.map (fun p => p.preferences.length)).sum_eq]
  have hcA : countFunction A po = (rawCountScore A : Int) := by simp [countFunction, hA]
  have hcB : countFunction B po = (rawCountScore B : Int) := by simp [countFunction, hB]
  have hsA : sumFunction A po = (rawSumScore A : Int) := by simp [sumFunction, hA]
  have hsB : sumFunction B po = (rawSumScore B : Int) := by simp [sumFunction, hB]
  refine ⟨rfl, ?_⟩
  intro hlt
  rw [hcB, hcA] at hlt
  have hltN : rawCountScore B < rawCountScore A := by exact_mod_cast hlt
  rw [hybridFunction, hybridFunction, hcA, hcB, hsA, hsB, hNpeople, hPrefs]
  by_cases hcase : rawSumScore B < max (getNoOfPeople A) (getTotalPrefs A)
  · have hN : rawCountScore B + 1 ≤ rawCountScore A := hltN
    have hmul : (rawCountScore B + 1) * (max (getNoOfPeople A) (getTotalPrefs A))
        ≤ rawCountScore A * (max (getNoOfPeople A) (getTotalPrefs A)) :=
      Nat.mul_le_mul_right _ hN
    have hexp : (rawCountScore B + 1) * (max (getNoOfPeople A) (getTotalPrefs A))
        = rawCountScore B * (max (getNoOfPeople A) (getTotalPrefs A))
          + (max (getNoOfPeople A) (getTotalPrefs A)) := by ring
    have hnat : rawCountScore B * (max (getNoOfPeople A) (getTotalPrefs A))
          + rawSumScore B
        < rawCountScore A * (max (getNoOfPeople A) (getTotalPrefs A))
          + rawSumScore A := by omega
    exact_mod_cast hnat
  · push_neg at hcase
    have hsle : rawSumScore B ≤ getTotalPrefs B := rawSumScore_le_totalPrefs B
    rw [hPrefs] at hsle
    have hPM : getTotalPrefs A ≤ max (getNoOfPeople A) (getTotalPrefs A) :=
      le_max_right _ _
    have hsat : rawSumScore B = getTotalPrefs B := by rw [hPrefs]; omega
    have hcnt := count_eq_of_sum_saturated B hsat
    have hApref : rawCountScore A ≤ prefPeople A := rawCountScore_le_prefPeople A
    have hprefeq : prefPeople A = prefPeople B := by
      unfold prefPeople
      exact hperm.countP_eq _
    exact absurd hltN (by omega)

/-- Witness for `hybrid_lexicographic`: the same two people at one table;
in A the membership map is filled so "a" scores their preference for "b",
in B the map is empty so nobody scores. -/
theorem hybrid_lexicographic_witness :
    hybridFunction [⟨2, [⟨"a", ["b"]⟩, ⟨"b", []⟩], emptyPMap⟩] (fun _ => none)
      < hybridFunction
        [⟨2, [⟨"a", ["b"]⟩, ⟨"b", []⟩],
          fun s => decide (s = "a") || decide (s = "b")⟩] (fun _ => none) :=
  (hybrid_lexicographic (fun _ => none)
    [⟨2, [⟨"a", ["b"]⟩, ⟨"b", []⟩], fun s => decide (s = "a") || decide (s = "b")⟩]
    [⟨2, [⟨"a", ["b"]⟩, ⟨"b", []⟩], emptyPMap⟩]
    (by decide) (by decide) (by decide)).2 (by decide)

end TableAlloc
